import Mathlib

set_option autoImplicit false

set_option maxRecDepth 8000

/-!
Shallow embedding of the session store and the result classifier of the
`agent-search` repository (`src/vertex_search/session.py` and
`src/vertex_search/client.py`).

Python strings are modelled as lists of characters (`Str`), Python `dict`s as
association lists with Python's assignment semantics (replace in place if the
key is present, append at the end otherwise), and `datetime` values by their
integer timestamps; every call to `datetime.now()` becomes an explicit `now`
parameter.  Code that can raise (an unguarded `dict` subscript) returns an
`Option`.
-/

/-- A Python string, as a list of characters. -/
abbrev Str := List Char

/-- Python `d.get(k)` / `d[k]` lookup on a dict modelled as an association
list: the value of the first entry whose key is `k`. -/
def dictGet {α : Type} : List (Str × α) → Str → Option α
  | [], _ => none
  | kv :: rest, k => if kv.1 = k then some kv.2 else dictGet rest k

/-- Python `d[k] = v`: replace the value in place when the key is present,
append the pair at the end otherwise. -/
def dictSet {α : Type} : List (Str × α) → Str → α → List (Str × α)
  | [], k, v => [(k, v)]
  | kv :: rest, k, v => if kv.1 = k then (k, v) :: rest else kv :: dictSet rest k v

/-- Mutation of the value stored under a key (`d[k].field = ...` /
`d[k].append(...)` in the source): apply `f` to the first entry whose key is
`k`, leave everything else unchanged. -/
def dictUpdate {α : Type} (f : α → α) : List (Str × α) → Str → List (Str × α)
  | [], _ => []
  | kv :: rest, k => if kv.1 = k then (kv.1, f kv.2) :: rest else kv :: dictUpdate f rest k

/-- One conversation turn, as built by `SessionManager.update_session`
(`session.py`, lines 65-72): query id and text, answer id, timestamp. -/
structure Turn where
  queryId : Str
  text : Str
  answer : Str
  timestamp : Int
deriving DecidableEq

/-- Modelled from the spec: `models.py` (which defines `SessionInfo`) is not
under `src/`.  Per spec §3, a Session carries the opaque id, an optional user
id, the state (`IN_PROGRESS` or `COMPLETED`), start/end timestamps (`end_time`
unset until the session is ended) and the ordered turn history. -/
structure SessionInfo where
  session_id : Str
  user_pseudo_id : Option Str
  start_time : Option Int
  state : Str
  end_time : Option Int := none
  turns : List Turn := []
deriving DecidableEq

/-- The state of `SessionManager` (`session.py`, lines 14-16): the map of
sessions and the map of per-session turn histories. -/
structure SessionManager where
  _active_sessions : List (Str × SessionInfo)
  _session_history : List (Str × List Turn)
deriving DecidableEq

def inProgressLit : Str := "IN_PROGRESS".toList

def completedLit : Str := "COMPLETED".toList

/-- `SessionManager.create_session` (`session.py`, lines 18-40).  The
generated `uuid.uuid4().hex` and `datetime.now()` are explicit parameters;
the returned id is the hex string with a trailing `'-'`. -/
def SessionManager.create_session (mgr : SessionManager) (uuid_hex : Str)
    (user_pseudo_id : Option Str) (now : Int) : Str × SessionManager :=
  let session_id := uuid_hex ++ ['-']
  let session_info : SessionInfo :=
    { session_id := session_id, user_pseudo_id := user_pseudo_id,
      start_time := some now, state := inProgressLit }
  (session_id,
    { _active_sessions := dictSet mgr._active_sessions session_id session_info,
      _session_history := dictSet mgr._session_history session_id [] })

/-- `SessionManager.get_session` (`session.py`, lines 42-52). -/
def SessionManager.get_session (mgr : SessionManager) (session_id : Str) :
    Option SessionInfo :=
  dictGet mgr._active_sessions session_id

/-- `SessionManager.update_session` (`session.py`, lines 54-75).  Inside the
`if session_id in self._active_sessions` branch the source subscripts
`self._session_history[session_id]` without a guard; a missing history entry
would raise `KeyError`, modelled as `none`. -/
def SessionManager.update_session (mgr : SessionManager) (session_id : Str)
    (query : Str) (query_id : Str) (answer_id : Str) (now : Int) :
    Option SessionManager :=
  if (dictGet mgr._active_sessions session_id).isSome then
    match dictGet mgr._session_history session_id with
    | none => none
    | some hist =>
      let turn : Turn :=
        { queryId := query_id, text := query, answer := answer_id, timestamp := now }
      let newHist := hist ++ [turn]
      some
        { _active_sessions :=
            dictUpdate (fun si => { si with turns := newHist })
              mgr._active_sessions session_id,
          _session_history := dictSet mgr._session_history session_id newHist }
  else some mgr

/-- `SessionManager.end_session` (`session.py`, lines 77-86): whenever the id
is present — with no check of the current state — set `end_time` to now and
the state to `COMPLETED`. -/
def SessionManager.end_session (mgr : SessionManager) (session_id : Str)
    (now : Int) : SessionManager :=
  if (dictGet mgr._active_sessions session_id).isSome then
    { mgr with
        _active_sessions :=
          dictUpdate (fun si => { si with end_time := some now, state := completedLit })
            mgr._active_sessions session_id }
  else mgr

/-- `SessionManager.get_session_history` (`session.py`, lines 88-98). -/
def SessionManager.get_session_history (mgr : SessionManager) (session_id : Str) :
    List Turn :=
  (dictGet mgr._session_history session_id).getD []

/-- `SessionManager.list_active_sessions` (`session.py`, lines 100-110). -/
def SessionManager.list_active_sessions (mgr : SessionManager) : List SessionInfo :=
  (mgr._active_sessions.map Prod.snd).filter (fun s => s.state = inProgressLit)

/-- `SessionManager.list_sessions_for_user` (`session.py`, lines 112-125):
filters on the user id only — there is no state check in the source. -/
def SessionManager.list_sessions_for_user (mgr : SessionManager)
    (user_pseudo_id : Str) : List SessionInfo :=
  (mgr._active_sessions.map Prod.snd).filter
    (fun s => s.user_pseudo_id = some user_pseudo_id)

/-- `SessionManager.is_new_session` (`session.py`, lines 127-137):
`session_id.endswith('-')`. -/
def SessionManager.is_new_session (session_id : Str) : Bool :=
  decide (session_id.getLast? = some '-')

/-- `SessionManager.get_clean_session_id` (`session.py`, lines 139-149):
`session_id.rstrip('-')`, i.e. remove every trailing `'-'`. -/
def SessionManager.get_clean_session_id (session_id : Str) : Str :=
  (session_id.reverse.dropWhile (fun c => c = '-')).reverse

/-- The per-session age test of the cleanup loop (`session.py`, line 166):
`session.start_time and session.start_time.timestamp() < cutoff_time` —
false when `start_time` is unset, otherwise a strict comparison. -/
def started_before (si : SessionInfo) (cutoff_time : Int) : Bool :=
  match si.start_time with
  | some t => decide (t < cutoff_time)
  | none => false

/-- `SessionManager.cleanup_old_sessions` (`session.py`, lines 151-174):
collect the ids whose `start_time` timestamp is strictly below
`now - max_age_hours * 3600` (ids with `start_time` unset are never
collected), delete them from both maps, return how many were deleted. -/
def SessionManager.cleanup_old_sessions (mgr : SessionManager)
    (max_age_hours : Int) (now : Int) : Nat × SessionManager :=
  let cutoff_time : Int := now - max_age_hours * 3600
  let sessions_to_remove : List Str :=
    (mgr._active_sessions.filter (fun kv => started_before kv.2 cutoff_time)).map
      Prod.fst
  (sessions_to_remove.length,
    { _active_sessions :=
        mgr._active_sessions.filter (fun kv => decide (kv.1 ∉ sessions_to_remove)),
      _session_history :=
        mgr._session_history.filter (fun kv => decide (kv.1 ∉ sessions_to_remove)) })

/-! ## Client layer (`client.py`) -/

/-- One element of the list returned by `VertexSearchClient.list_sessions`
(`client.py`, lines 513-523); times are carried as timestamps and `turns` is
the turn count (`len(session.turns)`). -/
structure SessionDict where
  session_id : Str
  user_pseudo_id : Option Str
  state : Str
  start_time : Option Int
  end_time : Option Int
  turns : Nat
deriving DecidableEq

/-- The dictionary built for one session by `VertexSearchClient.list_sessions`. -/
def sessionToDict (s : SessionInfo) : SessionDict :=
  { session_id := s.session_id, user_pseudo_id := s.user_pseudo_id,
    state := s.state, start_time := s.start_time, end_time := s.end_time,
    turns := s.turns.length }

/-- `VertexSearchClient.list_sessions` (`client.py`, lines 498-523): a truthy
(non-`None`, nonempty) user id selects `list_sessions_for_user`, otherwise
`list_active_sessions`. -/
def list_sessions (mgr : SessionManager) (user_pseudo_id : Option Str) :
    List SessionDict :=
  let sessions :=
    match user_pseudo_id with
    | some uid =>
      if uid ≠ [] then mgr.list_sessions_for_user uid else mgr.list_active_sessions
    | none => mgr.list_active_sessions
  sessions.map sessionToDict

/-! ## Result classifier (`client.py`, `extract_sows_from_results`) -/

/-- Modelled from the spec: `models.py` (which defines `SearchResult`) is not
under `src/`.  Per spec §6 a result carries a title, content, a link (`uri`)
and a score; the score is only carried through, never interpreted. -/
structure SearchResult where
  title : Str
  uri : Str
  content : Str
  score : Int
deriving DecidableEq

/-- Python whitespace for the regex class `\s` (ASCII part plus the Unicode
whitespace code points Python's `re` recognises in `str` patterns). -/
def isPySpace (c : Char) : Bool :=
  c = ' ' || c = '\t' || c = '\n' || c = '\r' || c = '\x0b' || c = '\x0c'
    || c = '\x1c' || c = '\x1d' || c = '\x1e' || c = '\x1f'
    || c = '\x85' || c = '\xa0' || c = '\u1680'
    || ('\u2000' ≤ c && c ≤ '\u200A')
    || c = '\u2028' || c = '\u2029' || c = '\u202F' || c = '\u205F' || c = '\u3000'

/-- The character class `[_\s#]` of the pattern in `client.py`, line 541. -/
def isSepChar (c : Char) : Bool :=
  c = '_' || c = '#' || isPySpace c

/-- The character class `[0-9X]` under `re.IGNORECASE` (`client.py`,
line 541): a digit, `X`, or `x`. -/
def isIdChar (c : Char) : Bool :=
  c.isDigit || c = 'X' || c = 'x'

/-- Match a literal case-insensitively (ASCII folding) at the head of the
input; on success return the rest of the input. -/
def stripLitCI : Str → Str → Option Str
  | [], s => some s
  | _ :: _, [] => none
  | p :: ps, c :: cs => if c.toLower = p.toLower then stripLitCI ps cs else none

def sowLit : Str := "sow".toList

def chrLit : Str := "chr_".toList

/-- The part `SOW[_\s#]*([0-9X]+)` of the pattern, anchored at the head of the
input: the literal label, then greedily separators, then a nonempty greedy run
of identifier characters — the captured group 2.  (The separator and
identifier classes are disjoint, so the regex engine's backtracking over
`[_\s#]*` can never produce a match this direct reading misses.) -/
def sowMatchCore (s : Str) : Option Str :=
  match stripLitCI sowLit s with
  | none => none
  | some rest =>
    if ((rest.dropWhile isSepChar).takeWhile isIdChar).isEmpty then none
    else some ((rest.dropWhile isSepChar).takeWhile isIdChar)

/-- The whole pattern `(CHR_)?SOW[_\s#]*([0-9X]+)` anchored at the head of the
input: the optional prefix is tried first, as the regex engine does. -/
def sowMatchAt (s : Str) : Option Str :=
  match stripLitCI chrLit s with
  | some rest =>
    match sowMatchCore rest with
    | some r => some r
    | none => sowMatchCore s
  | none => sowMatchCore s

/-- `re.search` of the pattern (`client.py`, lines 541-549): try the anchored
match at every position, left to right, and return the captured group 2 of
the first success. -/
def sowSearch : Str → Option Str
  | [] => none
  | c :: cs =>
    match sowMatchAt (c :: cs) with
    | some r => some r
    | none => sowSearch cs

/-- A condensed document record, as appended to `sows[key]['documents']` or
`other_docs` (`client.py`, lines 559-572). -/
structure DocRecord where
  title : Str
  link : Str
  content : Str
  score : Int
deriving DecidableEq

/-- One group of the `sows` mapping (`client.py`, lines 552-557). -/
structure SowGroup where
  sow_number : Str
  documents : List DocRecord
  primary_title : Str
deriving DecidableEq

def ellipsisLit : Str := "...".toList

/-- The content preview: `result.content[:200] + '...' if
len(result.content) > 200 else result.content` (`client.py`, line 562). -/
def condense (r : SearchResult) : DocRecord :=
  { title := r.title, link := r.uri,
    content :=
      if 200 < r.content.length then r.content.take 200 ++ ellipsisLit
      else r.content,
    score := r.score }

def sowHashLit : Str := "SOW#".toList

/-- The body of the `for result in results` loop (`client.py`, lines
543-572), acting on the pair (`sows`, `other_docs`). -/
def classifyStep (acc : List (Str × SowGroup) × List DocRecord)
    (result : SearchResult) : List (Str × SowGroup) × List DocRecord :=
  match sowSearch result.title with
  | some sow_num =>
    let sow_key := sowHashLit ++ sow_num
    let sows :=
      match dictGet acc.1 sow_key with
      | none =>
        dictSet acc.1 sow_key
          { sow_number := sow_num, documents := [], primary_title := result.title }
      | some _ => acc.1
    (dictUpdate (fun g => { g with documents := g.documents ++ [condense result] })
      sows sow_key, acc.2)
  | none => (acc.1, acc.2 ++ [condense result])

/-- Python `sorted` on string keys: lexicographic comparison by code point. -/
def strLe (a b : Str) : Bool :=
  match a, b with
  | [], _ => true
  | _ :: _, [] => false
  | c :: cs, d :: ds => if c = d then strLe cs ds else decide (c < d)

/-- Insert an entry into a list sorted ascending by key. -/
def insertByKey (kv : Str × SowGroup) : List (Str × SowGroup) → List (Str × SowGroup)
  | [] => [kv]
  | hd :: tl => if strLe kv.1 hd.1 then kv :: hd :: tl else hd :: insertByKey kv tl

/-- `dict(sorted(sows.items()))` (`client.py`, line 576): sort the entries
ascending by key.  The keys produced by the loop are pairwise distinct and
`strLe` is a total order on them, so every correct sort — Python's `sorted`
included — yields this same list; it is realised here as an insertion sort so
that it stays structurally recursive. -/
def sortSows (sows : List (Str × SowGroup)) : List (Str × SowGroup) :=
  sows.foldr insertByKey []

/-- The dictionary returned by `extract_sows_from_results` (`client.py`,
lines 574-579). -/
structure SowAnalysis where
  total_sows : Nat
  sows : List (Str × SowGroup)
  other_documents : List DocRecord
  total_documents : Nat
deriving DecidableEq

/-- `VertexSearchClient.extract_sows_from_results` (`client.py`, lines
525-579). -/
def extract_sows_from_results (results : List SearchResult) : SowAnalysis :=
  let p := results.foldl classifyStep ([], [])
  { total_sows := p.1.length, sows := sortSows p.1,
    other_documents := p.2, total_documents := results.length }

/-! ## Concrete stores and results used by the theorems below -/

def endCexMgr0 : SessionManager :=
  (SessionManager.create_session ⟨[], []⟩ ("abc".toList) none 0).2

def endCexSid : Str := "abc-".toList

def endCexMgr1 : SessionManager := SessionManager.end_session endCexMgr0 endCexSid 1

def endCexMgr2 : SessionManager := SessionManager.end_session endCexMgr1 endCexSid 2

def bobLit : Str := "bob".toList

def listCexMgr : SessionManager :=
  SessionManager.end_session
    (SessionManager.create_session ⟨[], []⟩ ("b1".toList) (some bobLit) 0).2
    ("b1-".toList) 1

def listCexDict : SessionDict :=
  { session_id := "b1-".toList, user_pseudo_id := some bobLit,
    state := completedLit, start_time := some 0, end_time := some 1, turns := 0 }

def sweepCexMgr : SessionManager :=
  (SessionManager.create_session ⟨[], []⟩ ("t".toList) none 5).2

/-- The states a `SessionManager` can reach from the empty store through the
four mutating operations.  The `update` step carries the success equation:
a step on which `update_session` would raise (`none`) produces no state. -/
inductive SessionManager.Reachable : SessionManager → Prop where
  | empty : SessionManager.Reachable ⟨[], []⟩
  | create (mgr : SessionManager) (uuid_hex : Str) (user : Option Str) (now : Int) :
      SessionManager.Reachable mgr →
      SessionManager.Reachable (mgr.create_session uuid_hex user now).2
  | update (mgr m2 : SessionManager) (sid q qid aid : Str) (now : Int) :
      SessionManager.Reachable mgr →
      mgr.update_session sid q qid aid now = some m2 →
      SessionManager.Reachable m2
  | endSession (mgr : SessionManager) (sid : Str) (now : Int) :
      SessionManager.Reachable mgr →
      SessionManager.Reachable (mgr.end_session sid now)
  | cleanup (mgr : SessionManager) (max_age_hours now : Int) :
      SessionManager.Reachable mgr →
      SessionManager.Reachable (mgr.cleanup_old_sessions max_age_hours now).2

def reachMgrW : SessionManager :=
  (SessionManager.create_session ⟨[], []⟩ ("w".toList) none 0).2

/-- `sum(len(group.documents) for group in groups)`. -/
def sumGroupDocs (sows : List (Str × SowGroup)) : Nat :=
  (sows.map (fun kv => kv.2.documents.length)).sum

def letterCexResult : SearchResult :=
  { title := "SOW AB".toList, uri := [], content := [], score := 0 }

def longContent : Str := List.replicate 201 'a'

def longCexResult : SearchResult :=
  { title := [], uri := [], content := longContent, score := 0 }

/-! ## Dictionary lemmas -/

theorem dictGet_dictSet_self {α : Type} (d : List (Str × α)) (k : Str) (v : α) :
    dictGet (dictSet d k v) k = some v := by
  induction d with
  | nil => simp [dictGet, dictSet]
  | cons kv rest ih =>
    by_cases h : kv.1 = k
    · simp [dictSet, h, dictGet]
    · simp [dictSet, h, dictGet, ih]

theorem dictGet_dictSet_ne {α : Type} (d : List (Str × α)) (k j : Str) (v : α)
    (h : j ≠ k) : dictGet (dictSet d k v) j = dictGet d j := by
  have h' : ¬ k = j := fun hh => h hh.symm
  induction d with
  | nil => simp [dictGet, dictSet, h']
  | cons kv rest ih =>
    by_cases hk : kv.1 = k
    · subst hk
      simp [dictSet, dictGet, h']
    · simp [dictSet, hk, dictGet, ih]

theorem dictGet_dictUpdate_self {α : Type} (f : α → α) (d : List (Str × α)) (k : Str) :
    dictGet (dictUpdate f d k) k = (dictGet d k).map f := by
  induction d with
  | nil => simp [dictGet, dictUpdate]
  | cons kv rest ih =>
    by_cases h : kv.1 = k
    · simp [dictUpdate, h, dictGet]
    · simp [dictUpdate, h, dictGet, ih]

theorem dictGet_dictUpdate_ne {α : Type} (f : α → α) (d : List (Str × α)) (k j : Str)
    (h : j ≠ k) : dictGet (dictUpdate f d k) j = dictGet d j := by
  have h' : ¬ k = j := fun hh => h hh.symm
  induction d with
  | nil => simp [dictUpdate]
  | cons kv rest ih =>
    by_cases hk : kv.1 = k
    · subst hk
      simp [dictUpdate, dictGet, h']
    · simp [dictUpdate, hk, dictGet, ih]

theorem keys_dictUpdate {α : Type} (f : α → α) (d : List (Str × α)) (k : Str) :
    (dictUpdate f d k).map Prod.fst = d.map Prod.fst := by
  induction d with
  | nil => simp [dictUpdate]
  | cons kv rest ih =>
    by_cases h : kv.1 = k
    · simp [dictUpdate, h]
    · simp [dictUpdate, h, ih]

theorem dictGet_isSome_iff {α : Type} (d : List (Str × α)) (k : Str) :
    (dictGet d k).isSome = true ↔ k ∈ d.map Prod.fst := by
  induction d with
  | nil => simp [dictGet]
  | cons kv rest ih =>
    by_cases h : kv.1 = k
    · subst h
      rw [List.map_cons]
      constructor
      · intro _
        exact List.mem_cons_self _ _
      · intro _
        simp only [dictGet, if_pos rfl, if_true, Option.isSome_some]
    · have h' : k ≠ kv.1 := fun hh => h hh.symm
      rw [List.map_cons]
      constructor
      · intro hs
        have hs' : (dictGet rest k).isSome = true := by
          simpa only [dictGet, if_neg h] using hs
        exact List.mem_cons_of_mem _ (ih.1 hs')
      · intro hm
        rcases List.mem_cons.1 hm with hm | hm
        · exact absurd hm h'
        · simp only [dictGet, if_neg h]
          exact ih.2 hm

theorem keys_dictSet_congr {α β : Type} (d : List (Str × α)) (e : List (Str × β))
    (k : Str) (v : α) (w : β) (h : d.map Prod.fst = e.map Prod.fst) :
    (dictSet d k v).map Prod.fst = (dictSet e k w).map Prod.fst := by
  induction d generalizing e with
  | nil =>
    cases e with
    | nil => simp [dictSet]
    | cons f fs =>
      simp only [List.map_nil, List.map_cons] at h
      exact List.noConfusion h
  | cons kv rest ih =>
    cases e with
    | nil =>
      simp only [List.map_nil, List.map_cons] at h
      exact List.noConfusion h
    | cons f fs =>
      simp only [List.map_cons, List.cons.injEq] at h
      obtain ⟨h1, h2⟩ := h
      by_cases hk : kv.1 = k
      · have hfk : f.1 = k := h1 ▸ hk
        simp [dictSet, hk, hfk, h2]
      · have hfk : ¬ f.1 = k := h1 ▸ hk
        simp [dictSet, hk, hfk, h1, ih fs h2]

theorem keys_dictSet_of_mem {α : Type} (d : List (Str × α)) (k : Str) (v : α)
    (h : k ∈ d.map Prod.fst) : (dictSet d k v).map Prod.fst = d.map Prod.fst := by
  induction d with
  | nil => exact absurd h (by simp)
  | cons kv rest ih =>
    by_cases hk : kv.1 = k
    · simp [dictSet, hk]
    · have hmem : k ∈ rest.map Prod.fst := by
        rw [List.map_cons] at h
        rcases List.mem_cons.1 h with hm | hm
        · exact absurd hm.symm hk
        · exact hm
      simp [dictSet, hk, ih hmem]

theorem keys_filter {α : Type} (p : Str → Bool) (d : List (Str × α)) :
    (d.filter (fun kv => p kv.1)).map Prod.fst = (d.map Prod.fst).filter p := by
  induction d with
  | nil => simp
  | cons kv rest ih =>
    by_cases h : p kv.1
    · simp [List.filter_cons, h, ih]
    · simp [List.filter_cons, h, ih]

/-! ## Lemmas about `rstrip` / `endswith` -/

theorem dropWhile_dropWhile_same {p : Char → Bool} :
    ∀ l : Str, List.dropWhile p (List.dropWhile p l) = List.dropWhile p l := by
  intro l
  induction l with
  | nil => simp
  | cons a t ih =>
    by_cases h : p a
    · simp [List.dropWhile_cons, h, ih]
    · simp [List.dropWhile_cons, h]

theorem head?_dropWhile_not {p : Char → Bool} :
    ∀ {l : Str} {a : Char}, (List.dropWhile p l).head? = some a → p a = false := by
  intro l
  induction l with
  | nil => intro a h; simp at h
  | cons b t ih =>
    intro a h
    by_cases hb : p b
    · exact ih (by simpa [List.dropWhile_cons, hb] using h)
    · rw [List.dropWhile_cons, if_neg (by simpa using hb), List.head?_cons] at h
      have hba : b = a := by simpa using h
      rw [← hba]
      simpa using hb

/-- Decomposition behind `rstrip('-')`: a list is the part kept by the strip
(reversed drop of trailing dashes) followed by the run of dashes the strip
removes. -/
theorem dropWhile_reverse_decomp (l : Str) :
    (List.dropWhile (fun c => decide (c = '-')) l).reverse ++
      List.replicate (List.takeWhile (fun c => decide (c = '-')) l).length '-'
      = l.reverse := by
  have ht : ∀ c ∈ List.takeWhile (fun c => decide (c = '-')) l, c = '-' := by
    intro c hc
    exact of_decide_eq_true
      (List.mem_takeWhile_imp (p := fun c => decide (c = '-')) hc)
  have hrepl : (List.takeWhile (fun c => decide (c = '-')) l).reverse =
      List.replicate (List.takeWhile (fun c => decide (c = '-')) l).length '-' := by
    have := List.eq_replicate_of_mem
      (l := (List.takeWhile (fun c => decide (c = '-')) l).reverse) (a := '-')
      (fun b hb => ht b (List.mem_reverse.1 hb))
    simpa [List.length_reverse] using this
  conv_rhs =>
    rw [← List.takeWhile_append_dropWhile
      (p := fun c => decide (c = '-')) (l := l)]
  rw [List.reverse_append, hrepl]

/-- C8.  `confirm` (`get_clean_session_id`) on a provisional id (one for which
`is_new_session` holds) yields the id with the whole trailing run of `'-'`
markers removed — the output is strictly shorter and appending the stripped
dashes restores the input — and `confirm` is idempotent on every string.
Its type `Str → Str` shows it reads and writes no `SessionManager` state. -/
theorem get_clean_session_id_idem_strip (sid : Str) :
    SessionManager.get_clean_session_id (SessionManager.get_clean_session_id sid) =
      SessionManager.get_clean_session_id sid ∧
    (SessionManager.is_new_session sid = true →
      (SessionManager.get_clean_session_id sid).length < sid.length ∧
      SessionManager.get_clean_session_id sid ++
          List.replicate (sid.length - (SessionManager.get_clean_session_id sid).length) '-'
        = sid) := by
  constructor
  · unfold SessionManager.get_clean_session_id
    rw [List.reverse_reverse, dropWhile_dropWhile_same]
  · intro h
    have hlast : sid.getLast? = some '-' :=
      of_decide_eq_true (by simpa [SessionManager.is_new_session] using h)
    have hhead : sid.reverse.head? = some '-' := by
      rw [List.head?_reverse]; exact hlast
    have hdecomp :
        SessionManager.get_clean_session_id sid ++
          List.replicate
            (List.takeWhile (fun c => decide (c = '-')) sid.reverse).length '-'
          = sid := by
      have := dropWhile_reverse_decomp sid.reverse
      rwa [List.reverse_reverse] at this
    have hpos :
        0 < (List.takeWhile (fun c => decide (c = '-')) sid.reverse).length := by
      cases hrev : sid.reverse with
      | nil => rw [hrev] at hhead; simp at hhead
      | cons a t =>
        rw [hrev] at hhead
        have ha : a = '-' := by simpa using hhead
        rw [List.takeWhile_cons]
        simp [ha]
    have hlen : (SessionManager.get_clean_session_id sid).length +
        (List.takeWhile (fun c => decide (c = '-')) sid.reverse).length
        = sid.length := by
      conv_rhs => rw [← hdecomp]
      rw [List.length_append, List.length_replicate]
    constructor
    · omega
    · have hn : sid.length - (SessionManager.get_clean_session_id sid).length =
          (List.takeWhile (fun c => decide (c = '-')) sid.reverse).length := by
        omega
      rw [hn, hdecomp]

/-- Witness for C8 at the concrete provisional id `"ab--"`. -/
theorem get_clean_session_id_idem_strip_witness :
    SessionManager.get_clean_session_id
        (SessionManager.get_clean_session_id ("ab--".toList)) =
      SessionManager.get_clean_session_id ("ab--".toList) ∧
    SessionManager.get_clean_session_id ("ab--".toList) ++
        List.replicate
          (("ab--".toList).length -
            (SessionManager.get_clean_session_id ("ab--".toList)).length) '-'
      = "ab--".toList := by
  have H := get_clean_session_id_idem_strip ("ab--".toList)
  exact ⟨H.1, (H.2 (by decide)).2⟩

/-- C10.  The output of `confirm` (`get_clean_session_id`) is never
provisional — `is_new_session` of it is `false` for every input string, since
all trailing delimiters are removed — and `confirm` returns its input
unchanged exactly when the input carries no trailing delimiter. -/
theorem clean_session_id_not_provisional (sid : Str) :
    SessionManager.is_new_session (SessionManager.get_clean_session_id sid) = false ∧
    (SessionManager.get_clean_session_id sid = sid ↔
      SessionManager.is_new_session sid = false) := by
  have hnot : SessionManager.is_new_session
      (SessionManager.get_clean_session_id sid) = false := by
    unfold SessionManager.is_new_session SessionManager.get_clean_session_id
    apply decide_eq_false
    intro hc
    rw [List.getLast?_reverse] at hc
    have := head?_dropWhile_not hc
    simp at this
  refine ⟨hnot, ?_, ?_⟩
  · intro he
    exact he ▸ hnot
  · intro hf
    have hne : ¬ sid.getLast? = some '-' := by
      intro hc
      rw [SessionManager.is_new_session, decide_eq_false_iff_not] at hf
      exact hf hc
    cases hrev : sid.reverse with
    | nil =>
      have hnil : sid = [] := by simpa using congrArg List.reverse hrev
      subst hnil
      rfl
    | cons a t =>
      have hhead : sid.reverse.head? = sid.getLast? := List.head?_reverse sid
      rw [hrev] at hhead
      have ha : sid.getLast? = some a := by simpa using hhead.symm
      have hane : ¬ a = '-' := fun hh => hne (hh ▸ ha)
      unfold SessionManager.get_clean_session_id
      rw [hrev, List.dropWhile_cons, if_neg (by simpa using hane), ← hrev,
        List.reverse_reverse]

/-- Witness for C10 at the concrete provisional id `"xy-"`. -/
theorem clean_session_id_not_provisional_witness :
    SessionManager.is_new_session
        (SessionManager.get_clean_session_id ("xy-".toList)) = false ∧
    (SessionManager.get_clean_session_id ("xy-".toList) = "xy-".toList ↔
      SessionManager.is_new_session ("xy-".toList) = false) :=
  clean_session_id_not_provisional ("xy-".toList)

/-! ## C2: `end_session` and `end_time` -/

theorem get_session_end_session_self (mgr : SessionManager) (sid : Str)
    (si : SessionInfo) (t : Int) (h : SessionManager.get_session mgr sid = some si) :
    SessionManager.get_session (SessionManager.end_session mgr sid t) sid =
      some { si with end_time := some t, state := completedLit } := by
  have h' : dictGet mgr._active_sessions sid = some si := h
  have hs : (dictGet mgr._active_sessions sid).isSome = true := by
    rw [h']; rfl
  unfold SessionManager.end_session
  rw [if_pos hs]
  unfold SessionManager.get_session
  rw [dictGet_dictUpdate_self, h']
  rfl

/-- Counterexample to C2: ending the session `"abc-"` at time 1 marks it
`COMPLETED` with `end_time = 1`; ending it again at time 2 is not a no-op —
`end_time` changes to 2. -/
theorem end_session_second_call_changes_end_time_cex :
    (SessionManager.get_session endCexMgr1 endCexSid).map SessionInfo.end_time =
      some (some 1) ∧
    (SessionManager.get_session endCexMgr1 endCexSid).map SessionInfo.state =
      some completedLit ∧
    (SessionManager.get_session endCexMgr2 endCexSid).map SessionInfo.end_time =
      some (some 2) := by
  decide

/-- C2 (amended).  `end` on a session present in the store sets its state to
`COMPLETED` and its `end_time` to the current (non-null) timestamp; a second
`end` call keeps the state `COMPLETED` but overwrites `end_time` with the
newer timestamp — `end_time` is written on every call, not at most once. -/
theorem end_session_overwrites_end_time (mgr : SessionManager) (sid : Str)
    (t t2 : Int) (h : (SessionManager.get_session mgr sid).isSome = true) :
    (SessionManager.get_session (SessionManager.end_session mgr sid t) sid).map
        (fun s => (s.state, s.end_time)) = some (completedLit, some t) ∧
    (SessionManager.get_session
        (SessionManager.end_session (SessionManager.end_session mgr sid t) sid t2)
        sid).map (fun s => (s.state, s.end_time)) = some (completedLit, some t2) := by
  obtain ⟨si, hget⟩ := Option.isSome_iff_exists.mp h
  have H1 := get_session_end_session_self mgr sid si t hget
  have H2 := get_session_end_session_self (SessionManager.end_session mgr sid t)
    sid _ t2 H1
  constructor
  · rw [H1]
    rfl
  · rw [H2]
    rfl

/-- Witness for C2 (amended), at the concrete one-session store. -/
theorem end_session_overwrites_end_time_witness :
    (SessionManager.get_session (SessionManager.end_session endCexMgr0 endCexSid 1)
        endCexSid).map (fun s => (s.state, s.end_time)) =
      some (completedLit, some 1) ∧
    (SessionManager.get_session
        (SessionManager.end_session
          (SessionManager.end_session endCexMgr0 endCexSid 1) endCexSid 2)
        endCexSid).map (fun s => (s.state, s.end_time)) =
      some (completedLit, some 2) :=
  end_session_overwrites_end_time endCexMgr0 endCexSid 1 2 (by decide)

/-! ## C4: `list_sessions` filtering -/

/-- Counterexample to C4: after ending user `"bob"`'s only session, listing by
that user id still returns it — with state `COMPLETED`. -/
theorem list_sessions_includes_completed_cex :
    (list_sessions listCexMgr (some bobLit)).map SessionDict.state =
      [completedLit] := by
  decide

/-- C4 (amended).  `list_sessions` with a nonempty user id returns exactly the
stored sessions of that user regardless of state (`COMPLETED` included); only
the variant without a user id restricts to `IN_PROGRESS` sessions. -/
theorem list_sessions_membership (mgr : SessionManager) (uid : Str)
    (d : SessionDict) (h : uid ≠ []) :
    (d ∈ list_sessions mgr (some uid) ↔
      ∃ s : SessionInfo, (∃ k : Str, (k, s) ∈ mgr._active_sessions) ∧
        s.user_pseudo_id = some uid ∧ d = sessionToDict s) ∧
    (d ∈ list_sessions mgr none ↔
      ∃ s : SessionInfo, (∃ k : Str, (k, s) ∈ mgr._active_sessions) ∧
        s.state = inProgressLit ∧ d = sessionToDict s) := by
  constructor
  · have hbranch : list_sessions mgr (some uid) =
        (mgr.list_sessions_for_user uid).map sessionToDict := by
      simp [list_sessions, h]
    rw [hbranch]
    unfold SessionManager.list_sessions_for_user
    constructor
    · intro hd
      obtain ⟨s, hs, hds⟩ := List.mem_map.1 hd
      obtain ⟨hsm, hpred⟩ := List.mem_filter.1 hs
      obtain ⟨kv, hkv, hkvs⟩ := List.mem_map.1 hsm
      refine ⟨s, ⟨kv.1, ?_⟩, of_decide_eq_true hpred, hds.symm⟩
      rw [← hkvs, Prod.mk.eta]
      exact hkv
    · rintro ⟨s, ⟨k, hks⟩, hu, hd⟩
      subst hd
      exact List.mem_map_of_mem sessionToDict
        (List.mem_filter.2
          ⟨List.mem_map_of_mem Prod.snd hks, decide_eq_true hu⟩)
  · have hbranch : list_sessions mgr none =
        mgr.list_active_sessions.map sessionToDict := rfl
    rw [hbranch]
    unfold SessionManager.list_active_sessions
    constructor
    · intro hd
      obtain ⟨s, hs, hds⟩ := List.mem_map.1 hd
      obtain ⟨hsm, hpred⟩ := List.mem_filter.1 hs
      obtain ⟨kv, hkv, hkvs⟩ := List.mem_map.1 hsm
      refine ⟨s, ⟨kv.1, ?_⟩, of_decide_eq_true hpred, hds.symm⟩
      rw [← hkvs, Prod.mk.eta]
      exact hkv
    · rintro ⟨s, ⟨k, hks⟩, hst, hd⟩
      subst hd
      exact List.mem_map_of_mem sessionToDict
        (List.mem_filter.2
          ⟨List.mem_map_of_mem Prod.snd hks, decide_eq_true hst⟩)

/-- Witness for C4 (amended): the completed `"bob"` session is reported by
the user-filtered listing. -/
theorem list_sessions_membership_witness :
    listCexDict ∈ list_sessions listCexMgr (some bobLit) :=
  (list_sessions_membership listCexMgr bobLit listCexDict (by decide)).1.mpr
    ⟨{ session_id := "b1-".toList, user_pseudo_id := some bobLit,
       start_time := some 0, state := completedLit, end_time := some 1,
       turns := [] },
      ⟨"b1-".toList, by decide⟩, by decide, by decide⟩

/-! ## C7: the cleanup sweep at `max_age = 0` -/

/-- Counterexample to C7: a store holding one session whose `start_time`
equals the sweep instant; `cleanup_old_sessions` with `max_age_hours = 0`
removes nothing and returns 0, not 1. -/
theorem sweep_zero_keeps_boundary_session_cex :
    sweepCexMgr._active_sessions.length = 1 ∧
    (SessionManager.cleanup_old_sessions sweepCexMgr 0 5).1 = 0 ∧
    (SessionManager.cleanup_old_sessions sweepCexMgr 0 5).2 = sweepCexMgr := by
  decide

/-- C7 (amended).  With `max_age = 0` the sweep removes exactly the sessions
whose `start_time` is strictly before the current instant and returns their
number; a session whose `start_time` equals the sweep time (or is unset) is
retained.  On the empty store the sweep returns 0. -/
theorem cleanup_zero_removes_strictly_older (mgr : SessionManager) (now : Int)
    (h : (mgr._active_sessions.map Prod.fst).Nodup) :
    (SessionManager.cleanup_old_sessions mgr 0 now).1 =
      (mgr._active_sessions.filter (fun kv => started_before kv.2 now)).length ∧
    (∀ kv : Str × SessionInfo,
      kv ∈ (SessionManager.cleanup_old_sessions mgr 0 now).2._active_sessions ↔
        kv ∈ mgr._active_sessions ∧ started_before kv.2 now = false) ∧
    SessionManager.cleanup_old_sessions ⟨[], []⟩ 0 now = (0, ⟨[], []⟩) := by
  have hcut : now - (0 : Int) * 3600 = now := by ring
  refine ⟨?_, ?_, ?_⟩
  · simp only [SessionManager.cleanup_old_sessions, hcut, List.length_map]
  · intro kv
    simp only [SessionManager.cleanup_old_sessions, hcut]
    constructor
    · intro hm
      obtain ⟨hmA, hnot⟩ := List.mem_filter.1 hm
      have hnotin : kv.1 ∉
          (mgr._active_sessions.filter
            (fun kv => started_before kv.2 now)).map Prod.fst :=
        of_decide_eq_true hnot
      refine ⟨hmA, ?_⟩
      by_contra hb
      rw [Bool.not_eq_false] at hb
      exact hnotin
        (List.mem_map_of_mem Prod.fst (List.mem_filter.2 ⟨hmA, hb⟩))
    · rintro ⟨hmA, hfalse⟩
      refine List.mem_filter.2 ⟨hmA, decide_eq_true ?_⟩
      intro hin
      obtain ⟨kv', hkv', hfst⟩ := List.mem_map.1 hin
      obtain ⟨hmA', hstarted⟩ := List.mem_filter.1 hkv'
      have : kv' = kv := List.inj_on_of_nodup_map h hmA' hmA hfst
      rw [this] at hstarted
      rw [hstarted] at hfalse
      exact Bool.noConfusion hfalse
  · rfl

/-- Witness for C7 (amended), at a two-session store swept at time 5: only
the session started strictly earlier (at 0) is counted as removed. -/
theorem cleanup_zero_removes_strictly_older_witness :
    (SessionManager.cleanup_old_sessions
      (SessionManager.create_session
        (SessionManager.create_session ⟨[], []⟩ ("o".toList) none 0).2
        ("t".toList) none 5).2 0 5).1 = 1 := by
  have H := cleanup_zero_removes_strictly_older
    (SessionManager.create_session
      (SessionManager.create_session ⟨[], []⟩ ("o".toList) none 0).2
      ("t".toList) none 5).2 5 (by decide)
  rw [H.1]
  decide

/-! ## C9 and C6: states reachable through the store operations -/

theorem keys_filter_notin {α : Type} (R : List Str) (d : List (Str × α)) :
    (d.filter (fun kv => decide (kv.1 ∉ R))).map Prod.fst =
      (d.map Prod.fst).filter (fun k => decide (k ∉ R)) :=
  keys_filter (fun k => decide (k ∉ R)) d

/-- In every reachable state the two maps have the same keys, in the same
order. -/
theorem reachable_keys_eq (mgr : SessionManager)
    (h : SessionManager.Reachable mgr) :
    mgr._active_sessions.map Prod.fst = mgr._session_history.map Prod.fst := by
  induction h with
  | empty => rfl
  | create mgr uuid_hex user now _ ih =>
    exact keys_dictSet_congr _ _ _ _ _ ih
  | update mgr m2 sid q qid aid now _ heq ih =>
    unfold SessionManager.update_session at heq
    by_cases hs : (dictGet mgr._active_sessions sid).isSome = true
    · rw [if_pos hs] at heq
      cases hh : dictGet mgr._session_history sid with
      | none => rw [hh] at heq; exact Option.noConfusion heq
      | some hist =>
        rw [hh] at heq
        have hm2 := Option.some.inj heq
        have hmem : sid ∈ mgr._session_history.map Prod.fst :=
          (dictGet_isSome_iff _ _).1 (by rw [hh]; rfl)
        rw [← hm2]
        simp only [keys_dictUpdate, ih, keys_dictSet_of_mem _ _ _ hmem]
    · rw [if_neg hs] at heq
      have hm2 := Option.some.inj heq
      rw [← hm2]
      exact ih
  | endSession mgr sid now _ ih =>
    unfold SessionManager.end_session
    by_cases hs : (dictGet mgr._active_sessions sid).isSome = true
    · rw [if_pos hs]
      simpa only [keys_dictUpdate] using ih
    · rw [if_neg hs]
      exact ih
  | cleanup mgr max_age_hours now _ ih =>
    unfold SessionManager.cleanup_old_sessions
    rw [keys_filter_notin, keys_filter_notin, ih]

/-- C9.  From the empty store, every state reachable through `create`,
`record_turn` (`update_session`), `end` and `sweep` keeps the key set of the
session map equal to the key set of the history map; consequently
`update_session`'s unguarded history append cannot raise on a session found
in the session map. -/
theorem session_store_key_sets_invariant (mgr : SessionManager)
    (h : SessionManager.Reachable mgr) :
    mgr._active_sessions.map Prod.fst = mgr._session_history.map Prod.fst ∧
    ∀ sid q qid aid : Str, ∀ now : Int,
      (SessionManager.get_session mgr sid).isSome = true →
      (SessionManager.update_session mgr sid q qid aid now).isSome = true := by
  have hkeys := reachable_keys_eq mgr h
  refine ⟨hkeys, ?_⟩
  intro sid q qid aid now hs
  have hs' : (dictGet mgr._active_sessions sid).isSome = true := hs
  have hmemA : sid ∈ mgr._active_sessions.map Prod.fst :=
    (dictGet_isSome_iff _ _).1 hs'
  have hmemH : sid ∈ mgr._session_history.map Prod.fst := hkeys ▸ hmemA
  have hh : (dictGet mgr._session_history sid).isSome = true :=
    (dictGet_isSome_iff _ _).2 hmemH
  unfold SessionManager.update_session
  rw [if_pos hs']
  cases hg : dictGet mgr._session_history sid with
  | none => rw [hg] at hh; exact Bool.noConfusion hh
  | some hist => rfl

/-- Witness for C9 at the concrete reachable one-session store. -/
theorem session_store_key_sets_invariant_witness :
    reachMgrW._active_sessions.map Prod.fst =
      reachMgrW._session_history.map Prod.fst ∧
    (SessionManager.update_session reachMgrW ("w-".toList) [] [] [] 3).isSome
      = true := by
  have H := session_store_key_sets_invariant reachMgrW
    (SessionManager.Reachable.create ⟨[], []⟩ ("w".toList) none 0
      SessionManager.Reachable.empty)
  exact ⟨H.1, H.2 ("w-".toList) [] [] [] 3 (by decide)⟩

/-- C6.  In every reachable store state, `record_turn` (`update_session`) on
an absent session id returns the store unchanged and raises nothing, while on
a present id it succeeds and appends exactly one turn at the end of that
session's history, leaving every other session's history untouched. -/
theorem update_session_append_or_noop (mgr : SessionManager)
    (h : SessionManager.Reachable mgr) (sid q qid aid : Str) (now : Int) :
    (SessionManager.get_session mgr sid = none →
      SessionManager.update_session mgr sid q qid aid now = some mgr) ∧
    ((SessionManager.get_session mgr sid).isSome = true →
      ∃ m2 : SessionManager,
        SessionManager.update_session mgr sid q qid aid now = some m2 ∧
        SessionManager.get_session_history m2 sid =
          SessionManager.get_session_history mgr sid ++
            [{ queryId := qid, text := q, answer := aid, timestamp := now }] ∧
        ∀ j : Str, j ≠ sid →
          SessionManager.get_session_history m2 j =
            SessionManager.get_session_history mgr j) := by
  constructor
  · intro hnone
    have hs : ¬ (dictGet mgr._active_sessions sid).isSome = true := by
      have : dictGet mgr._active_sessions sid = none := hnone
      rw [this]
      simp
    unfold SessionManager.update_session
    rw [if_neg hs]
  · intro hs
    have hs' : (dictGet mgr._active_sessions sid).isSome = true := hs
    have hkeys := reachable_keys_eq mgr h
    have hmemH : sid ∈ mgr._session_history.map Prod.fst :=
      hkeys ▸ (dictGet_isSome_iff _ _).1 hs'
    obtain ⟨hist, hg⟩ := Option.isSome_iff_exists.mp
      ((dictGet_isSome_iff _ _).2 hmemH)
    refine
      ⟨{ _active_sessions :=
            dictUpdate
              (fun si => { si with turns :=
                hist ++ [{ queryId := qid, text := q, answer := aid, timestamp := now }] })
              mgr._active_sessions sid,
         _session_history :=
            dictSet mgr._session_history sid
              (hist ++ [{ queryId := qid, text := q, answer := aid, timestamp := now }]) },
        ?_, ?_, ?_⟩
    · unfold SessionManager.update_session
      rw [if_pos hs', hg]
    · unfold SessionManager.get_session_history
      rw [dictGet_dictSet_self, hg]
      rfl
    · intro j hj
      unfold SessionManager.get_session_history
      rw [dictGet_dictSet_ne _ _ _ _ hj]

/-- Witness for C6: in the reachable one-session store, recording a turn
under an unknown id returns the store unchanged. -/
theorem update_session_append_or_noop_witness :
    SessionManager.update_session reachMgrW ("zz".toList) [] [] [] 7 =
      some reachMgrW :=
  (update_session_append_or_noop reachMgrW
    (SessionManager.Reachable.create ⟨[], []⟩ ("w".toList) none 0
      SessionManager.Reachable.empty) ("zz".toList) [] [] [] 7).1 (by decide)

/-! ## C1: the classifier partitions its input -/

theorem sumGroupDocs_dictSet_of_none (d : List (Str × SowGroup)) (k : Str)
    (v : SowGroup) (h : dictGet d k = none) :
    sumGroupDocs (dictSet d k v) = sumGroupDocs d + v.documents.length := by
  induction d with
  | nil => simp [dictSet, sumGroupDocs]
  | cons kv rest ih =>
    by_cases hk : kv.1 = k
    · rw [show dictGet (kv :: rest) k = some kv.2 from by simp [dictGet, hk]] at h
      exact Option.noConfusion h
    · have h' : dictGet rest k = none := by simpa [dictGet, hk] using h
      have := ih h'
      simp [dictSet, hk, sumGroupDocs] at this ⊢
      omega

theorem sumGroupDocs_dictUpdate_append (d : List (Str × SowGroup)) (k : Str)
    (doc : DocRecord) (h : (dictGet d k).isSome = true) :
    sumGroupDocs
        (dictUpdate (fun g => { g with documents := g.documents ++ [doc] }) d k)
      = sumGroupDocs d + 1 := by
  induction d with
  | nil => simp [dictGet] at h
  | cons kv rest ih =>
    by_cases hk : kv.1 = k
    · simp [dictUpdate, hk, sumGroupDocs]
      omega
    · have h' : (dictGet rest k).isSome = true := by simpa [dictGet, hk] using h
      have := ih h'
      simp [dictUpdate, hk, sumGroupDocs] at this ⊢
      omega

theorem classify_fold_sum (results : List SearchResult) :
    ∀ acc : List (Str × SowGroup) × List DocRecord,
      sumGroupDocs (results.foldl classifyStep acc).1 +
          ((results.foldl classifyStep acc).2).length
        = sumGroupDocs acc.1 + acc.2.length + results.length := by
  induction results with
  | nil => intro acc; simp
  | cons r rs ih =>
    intro acc
    rw [List.foldl_cons, ih (classifyStep acc r)]
    have hstep : sumGroupDocs (classifyStep acc r).1 +
        ((classifyStep acc r).2).length = sumGroupDocs acc.1 + acc.2.length + 1 := by
      unfold classifyStep
      cases hm : sowSearch r.title with
      | none =>
        simp only [List.length_append, List.length_cons, List.length_nil]
        omega
      | some num =>
        cases hg : dictGet acc.1 (sowHashLit ++ num) with
        | none =>
          simp only [hg]
          have h1 := sumGroupDocs_dictSet_of_none acc.1 (sowHashLit ++ num)
            { sow_number := num, documents := [], primary_title := r.title } hg
          have h2 : (dictGet
              (dictSet acc.1 (sowHashLit ++ num)
                { sow_number := num, documents := [], primary_title := r.title })
              (sowHashLit ++ num)).isSome = true := by
            rw [dictGet_dictSet_self]; rfl
          have h3 := sumGroupDocs_dictUpdate_append
            (dictSet acc.1 (sowHashLit ++ num)
              { sow_number := num, documents := [], primary_title := r.title })
            (sowHashLit ++ num) (condense r) h2
          rw [h3, h1]
          simp only [List.length_nil, Nat.add_zero]
          omega
        | some g =>
          simp only [hg]
          have h2 : (dictGet acc.1 (sowHashLit ++ num)).isSome = true := by
            rw [hg]; rfl
          have h3 := sumGroupDocs_dictUpdate_append acc.1 (sowHashLit ++ num)
            (condense r) h2
          rw [h3]
          omega
    rw [hstep]
    simp only [List.length_cons]
    omega

theorem insertByKey_perm (kv : Str × SowGroup) (l : List (Str × SowGroup)) :
    List.Perm (insertByKey kv l) (kv :: l) := by
  induction l with
  | nil => exact List.Perm.refl _
  | cons hd tl ih =>
    unfold insertByKey
    by_cases h : strLe kv.1 hd.1
    · rw [if_pos h]
    · rw [if_neg h]
      exact (List.Perm.cons hd ih).trans (List.Perm.swap kv hd tl)

theorem sortSows_perm (s : List (Str × SowGroup)) : List.Perm (sortSows s) s := by
  induction s with
  | nil => exact List.Perm.refl _
  | cons kv tl ih =>
    simp only [sortSows, List.foldr_cons]
    exact (insertByKey_perm kv _).trans (List.Perm.cons kv ih)

theorem sumGroupDocs_perm (s t : List (Str × SowGroup)) (h : List.Perm s t) :
    sumGroupDocs s = sumGroupDocs t :=
  List.Perm.sum_eq (h.map _)

/-- C1.  `extract_sows_from_results` assigns every input result to exactly
one group or to the `other_documents` bucket: the documents counted over all
groups plus the unclassified ones add up to `total_documents`, which is the
input length. -/
theorem extract_sows_partition_invariant (results : List SearchResult) :
    sumGroupDocs (extract_sows_from_results results).sows +
        (extract_sows_from_results results).other_documents.length
      = (extract_sows_from_results results).total_documents ∧
    (extract_sows_from_results results).total_documents = results.length := by
  constructor
  · show sumGroupDocs (sortSows (results.foldl classifyStep ([], [])).1) +
        ((results.foldl classifyStep ([], [])).2).length = results.length
    rw [sumGroupDocs_perm _ _ (sortSows_perm _)]
    have H := classify_fold_sum results ([], [])
    simpa [sumGroupDocs] using H
  · rfl

/-! ## C3: the identifier charset of the classifier pattern -/

theorem sowMatchCore_charset (s r : Str) (h : sowMatchCore s = some r) :
    r ≠ [] ∧ ∀ c ∈ r, isIdChar c = true := by
  unfold sowMatchCore at h
  split at h
  · exact Option.noConfusion h
  next rest heq =>
    split at h
    · exact Option.noConfusion h
    next hne =>
      have hr : (rest.dropWhile isSepChar).takeWhile isIdChar = r :=
        Option.some.inj h
      subst hr
      refine ⟨?_, ?_⟩
      · intro hnil
        exact hne (by rw [hnil]; rfl)
      · intro c hc
        exact List.mem_takeWhile_imp (p := isIdChar) hc

theorem sowMatchAt_charset (s r : Str) (h : sowMatchAt s = some r) :
    r ≠ [] ∧ ∀ c ∈ r, isIdChar c = true := by
  unfold sowMatchAt at h
  split at h
  next rest heq =>
    split at h
    next r' heq' =>
      have := sowMatchCore_charset rest r' heq'
      rwa [Option.some.inj h] at this
    next => exact sowMatchCore_charset s r h
  next => exact sowMatchCore_charset s r h

theorem sowSearch_charset (s r : Str) (h : sowSearch s = some r) :
    r ≠ [] ∧ ∀ c ∈ r, isIdChar c = true := by
  induction s with
  | nil => exact Option.noConfusion h
  | cons c cs ih =>
    unfold sowSearch at h
    split at h
    next r' heq =>
      have := sowMatchAt_charset (c :: cs) r' heq
      rwa [Option.some.inj h] at this
    next => exact ih h

/-- Counterexample to C3: the title `"SOW AB"`, whose identifier token `"AB"`
is made of letters other than the placeholder, is NOT matched — the pattern's
identifier class is only digits and `X`/`x` — and the result lands in the
unclassified bucket instead of a group. -/
theorem sow_letter_identifier_unclassified_cex :
    sowSearch letterCexResult.title = none ∧
    (extract_sows_from_results [letterCexResult]).sows = [] ∧
    (extract_sows_from_results [letterCexResult]).other_documents =
      [condense letterCexResult] := by
  decide

/-- C3 (amended).  The pattern match is case-insensitive with the identifier
drawn from digits and the placeholder `X` only (`x` accepted through case
insensitivity): every captured identifier is a nonempty string of digits,
`X`, or `x`.  Titles whose would-be identifier contains any other letter do
not match and go to the unclassified bucket. -/
theorem sow_identifier_charset (title sow_num : Str)
    (h : sowSearch title = some sow_num) :
    sow_num ≠ [] ∧ ∀ c ∈ sow_num, c.isDigit = true ∨ c = 'X' ∨ c = 'x' := by
  obtain ⟨hne, hall⟩ := sowSearch_charset title sow_num h
  refine ⟨hne, ?_⟩
  intro c hc
  have hid := hall c hc
  simp only [isIdChar, Bool.or_eq_true, decide_eq_true_eq] at hid
  exact or_assoc.mp hid

/-- Witness for C3 (amended) at the title `"CHR_sow #12X"`, whose captured
identifier is `"12X"`. -/
theorem sow_identifier_charset_witness :
    "12X".toList ≠ [] ∧ ('1'.isDigit = true ∨ '1' = 'X' ∨ '1' = 'x') := by
  have H := sow_identifier_charset ("CHR_sow #12X".toList) ("12X".toList)
    (by decide)
  exact ⟨H.1, H.2 '1' (by decide)⟩

/-! ## C5: the 200-character content preview -/

/-- Counterexample to C5: for a 201-character content the produced preview is
the first 200 characters plus the ellipsis marker — 203 characters — which is
NOT a prefix of the 201-character original. -/
theorem content_preview_not_a_prefix_cex :
    (extract_sows_from_results [longCexResult]).other_documents.map
        DocRecord.content = [List.replicate 200 'a' ++ ellipsisLit] ∧
    200 < longContent.length ∧
    ¬ ∃ t : Str, (List.replicate 200 'a' ++ ellipsisLit) ++ t = longContent := by
  refine ⟨by decide, by decide, ?_⟩
  rintro ⟨t, ht⟩
  have hl := congrArg List.length ht
  rw [List.length_append] at hl
  have h1 : (List.replicate 200 'a' ++ ellipsisLit).length = 203 := by decide
  have h2 : longContent.length = 201 := by decide
  rw [h1, h2] at hl
  omega

/-- C5 (amended).  For content longer than 200 characters the preview is
exactly 203 characters — the first 200 characters of the content, which are a
prefix of the original, followed by the ellipsis marker in positions
200-202 — so the preview with the marker removed (not the full preview) is a
prefix of the original; content of length at most 200 passes through
unchanged. -/
theorem content_preview_truncation (r : SearchResult) :
    (200 < r.content.length →
      (condense r).content.length = 203 ∧
      (∃ t : Str, (condense r).content.take 200 ++ t = r.content) ∧
      (condense r).content.drop 200 = ellipsisLit) ∧
    (r.content.length ≤ 200 → (condense r).content = r.content) := by
  constructor
  · intro h
    have hc : (condense r).content = r.content.take 200 ++ ellipsisLit := by
      simp [condense, h]
    have htl : (r.content.take 200).length = 200 := by
      rw [List.length_take]
      omega
    refine ⟨?_, ?_, ?_⟩
    · rw [hc, List.length_append, htl]
      decide
    · refine ⟨r.content.drop 200, ?_⟩
      rw [hc, List.take_left' htl]
      exact List.take_append_drop 200 r.content
    · rw [hc, List.drop_left' htl]
  · intro h
    have hnot : ¬ 200 < r.content.length := by omega
    simp [condense, hnot]

/-- Witness for C5 (amended) at the 201-character content. -/
theorem content_preview_truncation_witness :
    (condense longCexResult).content.length = 203 ∧
    (condense longCexResult).content.drop 200 = ellipsisLit := by
  have H := (content_preview_truncation longCexResult).1 (by decide)
  exact ⟨H.1, H.2.2⟩
